import Mathlib

/-!
Shallow embedding of the hybrid retrieval-and-fusion pipeline of the
`ragger` repository (file: the chat route exporting `POST`, containing
`weightedFusion` with its inner `normalize`, context assembly and the
metadata join).

Numbers are modelled as rationals (`ℚ`); JavaScript objects used as
score maps are modelled as association lists in insertion order, which
is the enumeration order `Object.entries` gives for the string document
ids handled here; `Array.prototype.sort` (required stable by the
language) is modelled by `List.insertionSort`, which produces the unique
stable sorted permutation; `undefined`/missing fields are modelled with
`Option`; thrown errors and the route's `try/catch` are modelled with
`Except`-shaped upstream oracles and explicit error propagation.
-/

namespace Ragger

/-- `const RAG_TOP_K = 3`. -/
def RAG_TOP_K : ℕ := 3

/-- `const FUSION_ALPHA = 0.5`. -/
def FUSION_ALPHA : ℚ := 1 / 2

/-- A row returned by the search service: `{ id, dist?, text? }`.
`dist` is the raw relevance score (may be absent), `text` the payload. -/
structure Row where
  id : String
  dist : Option ℚ
  text : Option String
deriving DecidableEq, Repr

/-- `interface RankedResult { id: string; score: number }`. -/
structure RankedResult where
  id : String
  score : ℚ
deriving DecidableEq, Repr

/-- `r.dist ?? 0`: a missing raw score is read as `0`. -/
def rawScore (r : Row) : ℚ := r.dist.getD 0

/-- `Math.max(...scores)` over a non-empty list (the empty case is never
consulted by `normalize`, which maps over the same empty array). -/
def listMax : List ℚ → ℚ
  | [] => 0
  | x :: xs => xs.foldl max x

/-- `Math.min(...scores)` over a non-empty list. -/
def listMin : List ℚ → ℚ
  | [] => 0
  | x :: xs => xs.foldl min x

/-- The divisor used by `normalize`: `const range = max - min || 1`. -/
def rangeOf (arr : List Row) : ℚ :=
  if listMax (arr.map rawScore) - listMin (arr.map rawScore) = 0 then 1
  else listMax (arr.map rawScore) - listMin (arr.map rawScore)

/-- The inner `normalize` of `weightedFusion`: min-max rescaling of the
raw scores of one result list. -/
def normalize (arr : List Row) : List RankedResult :=
  arr.map (fun r =>
    { id := r.id
      score := (rawScore r - listMin (arr.map rawScore)) / rangeOf arr })

/-- `scores[r.id] = (scores[r.id] || 0) + v` on the JS score object:
updating an existing key keeps its position, a new key is appended. -/
def addScore : List (String × ℚ) → String → ℚ → List (String × ℚ)
  | [], k, v => [(k, v)]
  | (j, w) :: rest, k, v =>
    if j = k then (j, w + v) :: rest else (j, w) :: addScore rest k v

/-- The score object after both accumulation loops of `weightedFusion`,
in `Object.entries` (insertion) order. -/
def fuseEntries (vNorm bNorm : List RankedResult) (alpha : ℚ) :
    List (String × ℚ) :=
  bNorm.foldl (fun m r => addScore m r.id ((1 - alpha) * r.score))
    (vNorm.foldl (fun m r => addScore m r.id (alpha * r.score)) [])

/-- The order used by `.sort(([, a], [, b]) => b - a)`: descending by
accumulated score. -/
def fuseLe (x y : String × ℚ) : Prop := y.2 ≤ x.2

instance : DecidableRel fuseLe := fun x y => inferInstanceAs (Decidable (y.2 ≤ x.2))

instance : IsTotal (String × ℚ) fuseLe := ⟨fun x y => le_total y.2 x.2⟩

instance : IsTrans (String × ℚ) fuseLe := ⟨fun _ _ _ h h2 => le_trans h2 h⟩

/-- Sorting and re-packing step of `weightedFusion`:
`Object.entries(scores).sort((...) => b - a).map(([id, score]) => ({id, score}))`. -/
def fuseSorted (vNorm bNorm : List RankedResult) (alpha : ℚ) :
    List RankedResult :=
  ((fuseEntries vNorm bNorm alpha).insertionSort fuseLe).map
    (fun p => { id := p.1, score := p.2 })

/-- `weightedFusion(vectorResults, bm25Results, alpha)`. -/
def weightedFusion (vectorResults bm25Results : List Row)
    (alpha : ℚ) : List RankedResult :=
  fuseSorted (normalize vectorResults) (normalize bm25Results) alpha

/-- The order of first appearance of the ids fed to the score object. -/
def firstSeen (l : List String) : List String :=
  l.foldl (fun acc x => if x ∈ acc then acc else acc ++ [x]) []

/-- Accumulated score an id holds in an association list (sum of the
values stored under that key; the key occurs at most once in the lists
built by `addScore` from `[]`). -/
def sumAt (m : List (String × ℚ)) (k : String) : ℚ :=
  ((m.filter (fun p => p.1 = k)).map (fun p => p.2)).sum

/-- Sum of the normalized scores a given id carries in one ranking list. -/
def sumScores (l : List RankedResult) (k : String) : ℚ :=
  ((l.filter (fun r => r.id = k)).map (fun r => r.score)).sum

/-- Accumulated fused score of an id in a fused output list. -/
def resultScore (l : List RankedResult) (k : String) : ℚ :=
  ((l.filter (fun r => r.id = k)).map (fun r => r.score)).sum

/-! ### The route handler `POST`

The handler is modelled as a pure function of the request body and a
record of upstream oracles (embedding client, hybrid search, metadata
store, generation service).  Each oracle may fail (`Except`), which in
the source throws and lands in the route's `catch`, producing the
generic 500 response.  Alongside the response we return the trace of
upstream calls issued, in order. -/

/-- One element of `messages` in the request body. -/
structure Msg where
  role : String
  content : String
deriving DecidableEq, Repr

/-- A record of the `hoa_doc_metadata` table (only the join key matters
to the pipeline; the displayed attributes feed logging alone). -/
structure MetaRec where
  vectorId : String
deriving DecidableEq, Repr

/-- An upstream call issued by the handler, as recorded in the trace. -/
inductive UpCall where
  | embed (input : String)
  | search (vec : List ℚ) (query : String)
  | metaLookup (ids : List String)
  | generate (system : String)
deriving DecidableEq, Repr

/-- The upstream services the handler depends on.  `search` stands for
the single `multiQuery` call and yields the vector rows and the BM25
rows; an `error` models a thrown/rejected call. -/
structure Upstreams where
  embed : String → Except Unit (List ℚ)
  search : List ℚ → String → Except Unit (List Row × List Row)
  metaLookup : List String → Except Unit (List MetaRec)
  generate : String → List Msg → Except Unit String

/-- An HTTP response: status code and body text. -/
structure Resp where
  status : ℕ
  body : String
deriving DecidableEq, Repr

/-- The `catch` branch: `Response(500, "Failed to generate response")`. -/
def err500 : Resp := { status := 500, body := "Failed to generate response" }

/-- `messages.filter((m) => m.role === "user").pop()?.content || ""`. -/
def lastUserQuery (messages : List Msg) : String :=
  match (messages.filter (fun m => m.role = "user")).getLast? with
  | some m => m.content
  | none => ""

/-- `Map.get` on the model of a JS `Map` keyed by id. -/
def mapGet (m : List (String × Row)) (k : String) : Option Row :=
  (m.find? (fun p => p.1 = k)).map (fun p => p.2)

/-- `Map.set`: overwrite in place if present, else append. -/
def mapSet (m : List (String × Row)) (k : String) (v : Row) :
    List (String × Row) :=
  if (m.find? (fun p => p.1 = k)).isSome then
    m.map (fun p => if p.1 = k then (p.1, v) else p)
  else m ++ [(k, v)]

/-- The `allRowsById` map: every vector row is `set`, then each BM25 row
only if its id is not yet present. -/
def allRowsById (vectorResults bm25Results : List Row) :
    List (String × Row) :=
  bm25Results.foldl
    (fun m r => if (mapGet m r.id).isSome then m else mapSet m r.id r)
    (vectorResults.foldl (fun m r => mapSet m r.id r) [])

/-- `ragResult.rows`: `topFusedIds.map((id) => allRowsById.get(id)).filter(Boolean)`. -/
def fusedRows (vectorResults bm25Results : List Row) : List Row :=
  (((weightedFusion vectorResults bm25Results FUSION_ALPHA).take
      RAG_TOP_K).map (fun r => r.id)).filterMap
    (fun id => mapGet (allRowsById vectorResults bm25Results) id)

/-- `contextItems`: texts of the retrieved rows, empty/missing filtered out. -/
def contextItems (rows : List Row) : List String :=
  (rows.map (fun r => r.text.getD "")).filter (fun t => t.length > 0)

/-- `contextBlock`: the sentinel-wrapped joined texts, or `""`. -/
def contextBlock (rows : List Row) : String :=
  if (contextItems rows).length > 0 then
    "START CONTEXT BLOCK\n" ++
      String.intercalate "\n\n" (contextItems rows) ++
      "\nEND OF CONTEXT BLOCK"
  else ""

/-- The system prompt template with the context block interpolated. -/
def systemPrompt (ctx : String) : String :=
  "You are a helpful HOA (Homeowners Association) assistant. You help residents with questions about HOA rules, regulations, amenities, maintenance requests, and community guidelines. Be professional, friendly, and informative in your responses.\n\n"
    ++ ctx

/-- Tail of the handler after the (possible) metadata lookup: context
assembly, prompt construction and the generation call.  The metadata
result feeds only the console log, so it is not a parameter. -/
def finishPOST (up : Upstreams) (messages : List Msg) (rows : List Row)
    (calls : List UpCall) : Resp × List UpCall :=
  match up.generate (systemPrompt (contextBlock rows)) messages with
  | Except.error _ =>
      (err500, calls ++ [UpCall.generate (systemPrompt (contextBlock rows))])
  | Except.ok text =>
      ({ status := 200, body := text },
        calls ++ [UpCall.generate (systemPrompt (contextBlock rows))])

/-- The route handler `POST`, as a function of the parsed request body
and the upstream services, returning the response and the ordered trace
of upstream calls made. -/
def POST (up : Upstreams) (messages : List Msg) : Resp × List UpCall :=
  let q := lastUserQuery messages
  match up.embed q with
  | Except.error _ => (err500, [UpCall.embed q])
  | Except.ok qvec =>
    match up.search qvec q with
    | Except.error _ => (err500, [UpCall.embed q, UpCall.search qvec q])
    | Except.ok (vres, bres) =>
      let rows := fusedRows vres bres
      let vectorIds := rows.map (fun r => r.id)
      let calls := [UpCall.embed q, UpCall.search qvec q]
      if vectorIds.length > 0 then
        match up.metaLookup vectorIds with
        | Except.error _ => (err500, calls ++ [UpCall.metaLookup vectorIds])
        | Except.ok _ =>
            finishPOST up messages rows (calls ++ [UpCall.metaLookup vectorIds])
      else
        finishPOST up messages rows calls

/-- A fully successful set of upstream services returning empty search
results. -/
def okUp : Upstreams where
  embed := fun _ => Except.ok []
  search := fun _ _ => Except.ok ([], [])
  metaLookup := fun _ => Except.ok []
  generate := fun _ _ => Except.ok "answer"

/-- Upstream services whose search returns one passage (id `x`, text
`hello`) and whose metadata lookup throws. -/
def metaFailUp : Upstreams where
  embed := fun _ => Except.ok []
  search := fun _ _ => Except.ok ([⟨"x", some 1, some "hello"⟩], [])
  metaLookup := fun _ => Except.error ()
  generate := fun _ _ => Except.ok "answer"

/-! ### Lemmas about `listMax`, `listMin`, `rangeOf` -/

theorem foldl_max_seed (xs : List ℚ) (a : ℚ) : a ≤ xs.foldl max a := by
  induction xs generalizing a with
  | nil => simp
  | cons y ys ih => exact le_trans (le_max_left a y) (ih (max a y))

theorem foldl_min_seed (xs : List ℚ) (a : ℚ) : xs.foldl min a ≤ a := by
  induction xs generalizing a with
  | nil => simp
  | cons y ys ih => exact le_trans (ih (min a y)) (min_le_left a y)

theorem le_foldl_max (xs : List ℚ) (a x : ℚ) (h : x ∈ xs) :
    x ≤ xs.foldl max a := by
  induction xs generalizing a with
  | nil => cases h
  | cons y ys ih =>
    rcases List.mem_cons.mp h with rfl | hx
    · exact le_trans (le_max_right a x) (foldl_max_seed ys (max a x))
    · exact ih (max a y) hx

theorem foldl_min_le (xs : List ℚ) (a x : ℚ) (h : x ∈ xs) :
    xs.foldl min a ≤ x := by
  induction xs generalizing a with
  | nil => cases h
  | cons y ys ih =>
    rcases List.mem_cons.mp h with rfl | hx
    · exact le_trans (foldl_min_seed ys (min a x)) (min_le_right a x)
    · exact ih (min a y) hx

theorem le_listMax (l : List ℚ) (x : ℚ) (h : x ∈ l) : x ≤ listMax l := by
  cases l with
  | nil => cases h
  | cons y ys =>
    rcases List.mem_cons.mp h with rfl | hx
    · exact foldl_max_seed ys x
    · exact le_foldl_max ys y x hx

theorem listMin_le (l : List ℚ) (x : ℚ) (h : x ∈ l) : listMin l ≤ x := by
  cases l with
  | nil => cases h
  | cons y ys =>
    rcases List.mem_cons.mp h with rfl | hx
    · exact foldl_min_seed ys x
    · exact foldl_min_le ys y x hx

theorem foldl_max_const (xs : List ℚ) (c : ℚ) (h : ∀ x ∈ xs, x = c) :
    xs.foldl max c = c := by
  induction xs with
  | nil => rfl
  | cons y ys ih =>
    have hy : y = c := h y (List.mem_cons_self y ys)
    have : ∀ x ∈ ys, x = c := fun x hx => h x (List.mem_cons_of_mem y hx)
    simp [hy, ih this]

theorem foldl_min_const (xs : List ℚ) (c : ℚ) (h : ∀ x ∈ xs, x = c) :
    xs.foldl min c = c := by
  induction xs with
  | nil => rfl
  | cons y ys ih =>
    have hy : y = c := h y (List.mem_cons_self y ys)
    have : ∀ x ∈ ys, x = c := fun x hx => h x (List.mem_cons_of_mem y hx)
    simp [hy, ih this]

/-- The divisor of `normalize` is never zero, on any input: the branch
`max - min || 1` replaces a zero range by `1`. -/
theorem rangeOf_ne_zero (arr : List Row) : rangeOf arr ≠ 0 := by
  unfold rangeOf
  split
  · norm_num
  · assumption

theorem rangeOf_eq_of_lt (arr : List Row)
    (h : listMin (arr.map rawScore) < listMax (arr.map rawScore)) :
    rangeOf arr = listMax (arr.map rawScore) - listMin (arr.map rawScore) := by
  have hne : listMax (arr.map rawScore) - listMin (arr.map rawScore) ≠ 0 :=
    sub_ne_zero.mpr (ne_of_gt h)
  unfold rangeOf
  rw [if_neg hne]

/-! ### C3 -/

/-- C3: for a non-empty list of raw scores whose maximum strictly
exceeds its minimum, `normalize` returns a same-length list, all values
lie in `[0, 1]`, every position holding the maximum raw score maps to
`1`, and every position holding the minimum maps to `0`. -/
theorem normalize_minmax (arr : List Row) (hne : arr ≠ [])
    (hlt : listMin (arr.map rawScore) < listMax (arr.map rawScore)) :
    (normalize arr).length = arr.length ∧
    ∀ i (hi : i < arr.length) (hj : i < (normalize arr).length),
      (0 ≤ ((normalize arr).get ⟨i, hj⟩).score ∧
        ((normalize arr).get ⟨i, hj⟩).score ≤ 1) ∧
      (rawScore (arr.get ⟨i, hi⟩) = listMax (arr.map rawScore) →
        ((normalize arr).get ⟨i, hj⟩).score = 1) ∧
      (rawScore (arr.get ⟨i, hi⟩) = listMin (arr.map rawScore) →
        ((normalize arr).get ⟨i, hj⟩).score = 0) := by
  have hrange := rangeOf_eq_of_lt arr hlt
  have hpos : 0 < rangeOf arr := by rw [hrange]; linarith
  constructor
  · simp [normalize]
  · intro i hi hj
    have hget : (normalize arr).get ⟨i, hj⟩ =
        { id := (arr.get ⟨i, hi⟩).id
          score := (rawScore (arr.get ⟨i, hi⟩) -
            listMin (arr.map rawScore)) / rangeOf arr } := by
      simp [normalize]
    have hmem : rawScore (arr.get ⟨i, hi⟩) ∈ arr.map rawScore :=
      List.mem_map_of_mem rawScore (arr.get_mem i hi)
    have hlb := listMin_le (arr.map rawScore) _ hmem
    have hub := le_listMax (arr.map rawScore) _ hmem
    refine ⟨⟨?_, ?_⟩, ?_, ?_⟩
    · rw [hget]
      exact div_nonneg (by linarith) (le_of_lt hpos)
    · rw [hget]
      rw [div_le_one hpos, hrange]
      linarith
    · intro hmax
      rw [hget]
      simp only [hmax, hrange]
      exact div_self (by linarith)
    · intro hmin
      rw [hget]
      simp only [hmin, sub_self, zero_div]

/-- Witness for C3 at the concrete input
`[⟨"a", raw 1⟩, ⟨"b", raw 0⟩]`: position 0 (the maximum) maps to `1`
and position 1 (the minimum) maps to `0`. -/
theorem normalize_minmax_witness :
    ((normalize [⟨"a", some 1, none⟩, ⟨"b", some 0, none⟩]).get
        ⟨0, by simp [normalize]⟩).score = 1 ∧
    ((normalize [⟨"a", some 1, none⟩, ⟨"b", some 0, none⟩]).get
        ⟨1, by simp [normalize]⟩).score = 0 := by
  have h := normalize_minmax [⟨"a", some 1, none⟩, ⟨"b", some 0, none⟩]
    (by simp) (by norm_num [listMin, listMax, rawScore])
  exact ⟨(h.2 0 (by norm_num) (by simp [normalize])).2.1
      (by norm_num [rawScore, listMax]),
    (h.2 1 (by norm_num) (by simp [normalize])).2.2
      (by norm_num [rawScore, listMin])⟩

/-! ### C4 -/

/-- C4: normalizing a non-empty list in which all raw scores are equal
yields all outputs `0`; the zero range is replaced by `1` before
dividing, and (for any input whatsoever) the divisor used is nonzero. -/
theorem normalize_degenerate (arr : List Row) (hne : arr ≠ []) (c : ℚ)
    (hall : ∀ r ∈ arr, rawScore r = c) :
    rangeOf arr = 1 ∧ (∀ x ∈ normalize arr, x.score = 0) ∧
    ∀ brr : List Row, rangeOf brr ≠ 0 := by
  have hconst : ∀ y ∈ arr.map rawScore, y = c := by
    intro y hy
    rcases List.mem_map.mp hy with ⟨r, hr, rfl⟩
    exact hall r hr
  have hmax : listMax (arr.map rawScore) = c := by
    cases harr : arr with
    | nil => exact absurd harr hne
    | cons r rest =>
      have := hconst
      rw [harr] at this
      simp only [List.map_cons, listMax]
      rw [this (rawScore r) (by simp)]
      exact foldl_max_const _ c (fun x hx => this x (by simp [hx]))
  have hmin : listMin (arr.map rawScore) = c := by
    cases harr : arr with
    | nil => exact absurd harr hne
    | cons r rest =>
      have := hconst
      rw [harr] at this
      simp only [List.map_cons, listMin]
      rw [this (rawScore r) (by simp)]
      exact foldl_min_const _ c (fun x hx => this x (by simp [hx]))
  have hrange : rangeOf arr = 1 := by
    unfold rangeOf
    rw [hmax, hmin]
    simp
  refine ⟨hrange, ?_, rangeOf_ne_zero⟩
  intro x hx
  rcases List.mem_map.mp hx with ⟨r, hr, rfl⟩
  simp only [hrange, hmin, hall r hr]
  ring

/-- Witness for C4 at the concrete all-equal input
`[⟨"a", raw 7⟩, ⟨"b", raw 7⟩]`. -/
theorem normalize_degenerate_witness :
    rangeOf [⟨"a", some 7, none⟩, ⟨"b", some 7, none⟩] = 1 ∧
    ∀ x ∈ normalize [⟨"a", some 7, none⟩, ⟨"b", some 7, none⟩],
      x.score = 0 := by
  have h := normalize_degenerate [⟨"a", some 7, none⟩, ⟨"b", some 7, none⟩]
    (by simp) 7 (by intro r hr; fin_cases hr <;> rfl)
  exact ⟨h.1, h.2.1⟩

/-! ### C6 -/

/-- C6: the end-to-end scenario — vector ranking `[a: 0.9, b: 0.5]`,
lexical ranking `[b: 10, c: 2]`, `alpha = 0.5`, `K = 2`.  Normalization
yields `[a: 1, b: 0]` and `[b: 1, c: 0]`, the fused output carries the
scores `a: 0.5`, `b: 0.5`, `c: 0`, and the top-2 truncation is
`[a, b]` — the `a`/`b` tie resolved by first-seen order. -/
theorem scenario1_end_to_end :
    normalize [⟨"a", some (9/10), none⟩, ⟨"b", some (1/2), none⟩] =
      [⟨"a", 1⟩, ⟨"b", 0⟩] ∧
    normalize [⟨"b", some 10, none⟩, ⟨"c", some 2, none⟩] =
      [⟨"b", 1⟩, ⟨"c", 0⟩] ∧
    weightedFusion [⟨"a", some (9/10), none⟩, ⟨"b", some (1/2), none⟩]
        [⟨"b", some 10, none⟩, ⟨"c", some 2, none⟩] (1/2) =
      [⟨"a", 1/2⟩, ⟨"b", 1/2⟩, ⟨"c", 0⟩] ∧
    ((weightedFusion [⟨"a", some (9/10), none⟩, ⟨"b", some (1/2), none⟩]
        [⟨"b", some 10, none⟩, ⟨"c", some 2, none⟩] (1/2)).take 2).map
      (fun r => r.id) = ["a", "b"] := by
  refine ⟨?_, ?_, ?_, ?_⟩ <;>
    norm_num [weightedFusion, fuseSorted, fuseEntries, normalize, rawScore,
      rangeOf, listMax, listMin, addScore, fuseLe, List.insertionSort,
      List.orderedInsert]

/-! ### C5 -/

/-- C5 fails as stated: swapping the two input lists while complementing
the weight preserves every fused score, but not the order of the output
entries.  With `V = [a: 1]`, `L = [b: 1]`, `alpha = 1/2`, both ids tie
at fused score `0`, and the tie is broken by first-seen order, which
depends on which list is traversed first: the outputs are
`[a, b]` versus `[b, a]`. -/
theorem fusion_swap_counterexample :
    weightedFusion [⟨"a", some 1, none⟩] [⟨"b", some 1, none⟩] (1/2) ≠
      weightedFusion [⟨"b", some 1, none⟩] [⟨"a", some 1, none⟩]
        (1 - 1/2) := by
  norm_num [weightedFusion, fuseSorted, fuseEntries, normalize, rawScore,
    rangeOf, listMax, listMin, addScore, fuseLe, List.insertionSort,
    List.orderedInsert]
  decide

/-! ### Lemmas about the score object (`addScore` folds) -/

theorem sumAt_nil (k : String) : sumAt [] k = 0 := rfl

theorem sumAt_cons (j : String) (w : ℚ) (m : List (String × ℚ)) (k : String) :
    sumAt ((j, w) :: m) k = (if j = k then w else 0) + sumAt m k := by
  by_cases h : j = k <;> simp [sumAt, List.filter_cons, h]

theorem sumAt_addScore (m : List (String × ℚ)) (k : String) (v : ℚ)
    (q : String) :
    sumAt (addScore m k v) q = sumAt m q + (if k = q then v else 0) := by
  induction m with
  | nil =>
    by_cases h : k = q <;> simp [addScore, sumAt_cons, sumAt_nil, h]
  | cons p rest ih =>
    obtain ⟨j, w⟩ := p
    by_cases hj : j = k
    · subst hj
      simp only [addScore, eq_self_iff_true, if_true, sumAt_cons]
      by_cases h : j = q
      · simp only [if_pos h]
        ring
      · simp only [if_neg h]
        ring
    · simp only [addScore, if_neg hj, sumAt_cons, ih]
      ring

theorem sumScores_cons (r : RankedResult) (l : List RankedResult)
    (k : String) :
    sumScores (r :: l) k = (if r.id = k then r.score else 0) + sumScores l k := by
  by_cases h : r.id = k <;> simp [sumScores, List.filter_cons, h]

theorem sumAt_foldl (l : List RankedResult) (c : ℚ)
    (m0 : List (String × ℚ)) (k : String) :
    sumAt (l.foldl (fun m r => addScore m r.id (c * r.score)) m0) k =
      sumAt m0 k + c * sumScores l k := by
  induction l generalizing m0 with
  | nil => simp [sumScores, sumAt]
  | cons r rest ih =>
    rw [List.foldl_cons, ih, sumAt_addScore, sumScores_cons]
    by_cases h : r.id = k <;> simp [h] <;> ring

/-- The accumulated score each id holds after both loops of
`weightedFusion`: `alpha` times its vector contribution plus
`1 - alpha` times its lexical contribution (each `0` when absent). -/
theorem sumAt_fuseEntries (vNorm bNorm : List RankedResult) (alpha : ℚ)
    (k : String) :
    sumAt (fuseEntries vNorm bNorm alpha) k =
      alpha * sumScores vNorm k + (1 - alpha) * sumScores bNorm k := by
  unfold fuseEntries
  rw [sumAt_foldl, sumAt_foldl, sumAt_nil]
  ring

theorem keys_addScore (m : List (String × ℚ)) (k : String) (v : ℚ) :
    (addScore m k v).map (fun p => p.1) =
      if k ∈ m.map (fun p => p.1) then m.map (fun p => p.1)
      else m.map (fun p => p.1) ++ [k] := by
  induction m with
  | nil => simp [addScore]
  | cons p rest ih =>
    obtain ⟨j, w⟩ := p
    by_cases hj : j = k
    · subst hj
      simp [addScore]
    · simp only [addScore, if_neg hj, List.map_cons, ih]
      by_cases hk : k ∈ rest.map (fun p => p.1)
      · simp [hk, hj, Ne.symm hj]
      · simp [hk, hj, Ne.symm hj]

theorem keys_foldl (l : List RankedResult) (c : ℚ)
    (m0 : List (String × ℚ)) :
    ((l.foldl (fun m r => addScore m r.id (c * r.score)) m0).map
        (fun p => p.1)) =
      (l.map (fun r => r.id)).foldl
        (fun acc x => if x ∈ acc then acc else acc ++ [x])
        (m0.map (fun p => p.1)) := by
  induction l generalizing m0 with
  | nil => rfl
  | cons r rest ih =>
    rw [List.foldl_cons, ih, keys_addScore, List.map_cons, List.foldl_cons]

/-- The keys of the fused score object, in enumeration order, are the
ids of the two rankings in order of first appearance (vector list
first, then lexical list). -/
theorem keys_fuseEntries (vNorm bNorm : List RankedResult) (alpha : ℚ) :
    (fuseEntries vNorm bNorm alpha).map (fun p => p.1) =
      firstSeen (vNorm.map (fun r => r.id) ++ bNorm.map (fun r => r.id)) := by
  unfold fuseEntries firstSeen
  rw [keys_foldl, keys_foldl]
  simp [List.foldl_append]

theorem mem_firstSeen_foldl (l acc : List String) (x : String) :
    x ∈ l.foldl (fun acc y => if y ∈ acc then acc else acc ++ [y]) acc ↔
      x ∈ acc ∨ x ∈ l := by
  induction l generalizing acc with
  | nil => simp
  | cons y ys ih =>
    rw [List.foldl_cons, ih]
    by_cases hy : y ∈ acc
    · simp only [if_pos hy, List.mem_cons]
      constructor
      · rintro (h | h)
        · exact Or.inl h
        · exact Or.inr (Or.inr h)
      · rintro (h | rfl | h)
        · exact Or.inl h
        · exact Or.inl hy
        · exact Or.inr h
    · simp only [if_neg hy, List.mem_append, List.mem_singleton,
        List.mem_cons]
      tauto

theorem nodup_keys_addScore (m : List (String × ℚ)) (k : String) (v : ℚ)
    (h : (m.map (fun p => p.1)).Nodup) :
    ((addScore m k v).map (fun p => p.1)).Nodup := by
  rw [keys_addScore]
  by_cases hk : k ∈ m.map (fun p => p.1)
  · simpa [hk] using h
  · simp only [if_neg hk]
    refine List.Nodup.append h (List.nodup_singleton k) ?_
    intro a ha hb
    rw [List.mem_singleton] at hb
    subst hb
    exact hk ha

theorem nodup_keys_foldl (l : List RankedResult) (c : ℚ)
    (m0 : List (String × ℚ)) (h : (m0.map (fun p => p.1)).Nodup) :
    (((l.foldl (fun m r => addScore m r.id (c * r.score)) m0)).map
      (fun p => p.1)).Nodup := by
  induction l generalizing m0 with
  | nil => exact h
  | cons r rest ih =>
    rw [List.foldl_cons]
    exact ih _ (nodup_keys_addScore m0 r.id (c * r.score) h)

theorem nodup_keys_fuseEntries (vNorm bNorm : List RankedResult)
    (alpha : ℚ) :
    ((fuseEntries vNorm bNorm alpha).map (fun p => p.1)).Nodup := by
  unfold fuseEntries
  exact nodup_keys_foldl _ _ _ (nodup_keys_foldl _ _ [] (by simp))

theorem filterKey_eq_nil (m : List (String × ℚ)) (k : String)
    (h : k ∉ m.map (fun p => p.1)) :
    m.filter (fun p => p.1 = k) = [] := by
  induction m with
  | nil => rfl
  | cons p rest ih =>
    simp only [List.map_cons, List.mem_cons] at h
    push_neg at h
    rw [List.filter_cons]
    simp only [decide_eq_true_eq]
    rw [if_neg (Ne.symm h.1)]
    exact ih h.2

theorem sumAt_eq_zero_of_not_mem (m : List (String × ℚ)) (k : String)
    (h : k ∉ m.map (fun p => p.1)) : sumAt m k = 0 := by
  unfold sumAt
  rw [filterKey_eq_nil m k h]
  rfl

theorem filterKey_of_nodup (m : List (String × ℚ)) (k : String)
    (hnd : (m.map (fun p => p.1)).Nodup) (hk : k ∈ m.map (fun p => p.1)) :
    m.filter (fun p => p.1 = k) = [(k, sumAt m k)] := by
  induction m with
  | nil => cases hk
  | cons p rest ih =>
    obtain ⟨j, w⟩ := p
    simp only [List.map_cons, List.nodup_cons] at hnd
    by_cases hj : j = k
    · subst hj
      have hrest : j ∉ rest.map (fun p => p.1) := hnd.1
      rw [List.filter_cons]
      simp only [decide_eq_true_eq, if_pos rfl]
      rw [filterKey_eq_nil rest j hrest, sumAt_cons, if_pos rfl,
        sumAt_eq_zero_of_not_mem rest j hrest]
      simp
    · have hk2 : k ∈ rest.map (fun p => p.1) := by
        simp only [List.map_cons, List.mem_cons] at hk
        rcases hk with h | h
        · exact absurd h.symm hj
        · exact h
      rw [List.filter_cons]
      simp only [decide_eq_true_eq]
      rw [if_neg hj, sumAt_cons, if_neg hj, zero_add]
      exact ih hnd.2 hk2

/-! ### Stability of the stable sort, expressed through `filter` -/

theorem filter_orderedInsert_pos {α : Type} (r : α → α → Prop)
    [DecidableRel r] (p : α → Bool) (a : α) (hpa : p a = true)
    (hmono : ∀ b, p b = true → r a b) (l : List α) :
    (l.orderedInsert r a).filter p = a :: l.filter p := by
  induction l with
  | nil => simp [List.orderedInsert, hpa]
  | cons b bs ih =>
    by_cases hab : r a b
    · simp [List.orderedInsert, hab, List.filter_cons, hpa]
    · have hpb : p b = false := by
        cases hpbt : p b
        · rfl
        · exact absurd (hmono b hpbt) hab
      simp [List.orderedInsert, hab, List.filter_cons, hpb, ih]

theorem filter_orderedInsert_neg {α : Type} (r : α → α → Prop)
    [DecidableRel r] (p : α → Bool) (a : α) (hpa : p a = false)
    (l : List α) :
    (l.orderedInsert r a).filter p = l.filter p := by
  induction l with
  | nil => simp [List.orderedInsert, hpa]
  | cons b bs ih =>
    by_cases hab : r a b
    · simp [List.orderedInsert, hab, List.filter_cons, hpa]
    · simp [List.orderedInsert, hab, List.filter_cons, ih]

/-- Stability of `insertionSort` on a class of mutually tied elements:
if all elements satisfying `p` are pairwise related by `r`, sorting does
not disturb their relative order, so filtering them out of the sorted
list gives the same list as filtering them out of the input. -/
theorem filter_insertionSort {α : Type} (r : α → α → Prop)
    [DecidableRel r] (p : α → Bool)
    (hp : ∀ a b, p a = true → p b = true → r a b) (l : List α) :
    (l.insertionSort r).filter p = l.filter p := by
  induction l with
  | nil => rfl
  | cons a as ih =>
    simp only [List.insertionSort]
    cases hpa : p a
    · rw [filter_orderedInsert_neg r p a hpa, ih, List.filter_cons]
      simp [hpa]
    · rw [filter_orderedInsert_pos r p a hpa (fun b hb => hp a b hpa hb), ih,
        List.filter_cons]
      simp [hpa]

/-! ### The fused output as a function of the accumulated scores -/

/-- The entries of the sorted fused output carrying a given id: exactly
one, holding the accumulated fused score of that id. -/
theorem fuse_filter_key (vNorm bNorm : List RankedResult) (alpha : ℚ)
    (k : String)
    (hk : k ∈ vNorm.map (fun r => r.id) ∨ k ∈ bNorm.map (fun r => r.id)) :
    (fuseSorted vNorm bNorm alpha).filter (fun r => r.id = k) =
      [⟨k, alpha * sumScores vNorm k + (1 - alpha) * sumScores bNorm k⟩] := by
  have hmem : k ∈ (fuseEntries vNorm bNorm alpha).map (fun p => p.1) := by
    rw [keys_fuseEntries]
    unfold firstSeen
    rw [mem_firstSeen_foldl]
    right
    rw [List.mem_append]
    exact hk
  have hnd := nodup_keys_fuseEntries vNorm bNorm alpha
  have hfil := filterKey_of_nodup _ k hnd hmem
  have key : ((fuseEntries vNorm bNorm alpha).insertionSort fuseLe).filter
      (fun p => p.1 = k) = [(k, sumAt (fuseEntries vNorm bNorm alpha) k)] := by
    have hperm := (List.perm_insertionSort fuseLe
      (fuseEntries vNorm bNorm alpha)).filter (fun p => decide (p.1 = k))
    rw [hfil] at hperm
    exact List.perm_singleton.mp hperm
  unfold fuseSorted
  rw [List.filter_map]
  have hcongr : ((fuseEntries vNorm bNorm alpha).insertionSort fuseLe).filter
      ((fun r : RankedResult => decide (r.id = k)) ∘
        (fun p => ({ id := p.1, score := p.2 } : RankedResult))) =
      ((fuseEntries vNorm bNorm alpha).insertionSort fuseLe).filter
        (fun p => p.1 = k) :=
    List.filter_congr (fun x _ => rfl)
  rw [hcongr, key, List.map_singleton, sumAt_fuseEntries]

/-- The accumulated fused score of an id in the final output list. -/
theorem resultScore_fuseSorted (vNorm bNorm : List RankedResult)
    (alpha : ℚ) (k : String) :
    resultScore (fuseSorted vNorm bNorm alpha) k =
      sumAt (fuseEntries vNorm bNorm alpha) k := by
  unfold resultScore fuseSorted sumAt
  rw [List.filter_map]
  have hcongr : ((fuseEntries vNorm bNorm alpha).insertionSort fuseLe).filter
      ((fun r : RankedResult => decide (r.id = k)) ∘
        (fun p => ({ id := p.1, score := p.2 } : RankedResult))) =
      ((fuseEntries vNorm bNorm alpha).insertionSort fuseLe).filter
        (fun p => p.1 = k) :=
    List.filter_congr (fun x _ => rfl)
  rw [hcongr, List.map_map]
  have hperm := ((List.perm_insertionSort fuseLe
    (fuseEntries vNorm bNorm alpha)).filter
      (fun p => decide (p.1 = k))).map (fun p => p.2)
  exact hperm.sum_eq

/-- The ids appearing in the fused output are exactly those appearing
in either input ranking. -/
theorem mem_ids_fuseSorted (vNorm bNorm : List RankedResult) (alpha : ℚ)
    (k : String) :
    k ∈ (fuseSorted vNorm bNorm alpha).map (fun r => r.id) ↔
      k ∈ vNorm.map (fun r => r.id) ∨ k ∈ bNorm.map (fun r => r.id) := by
  unfold fuseSorted
  rw [List.map_map]
  have hcomp : ((fun r : RankedResult => r.id) ∘
      (fun p : String × ℚ => ({ id := p.1, score := p.2 } : RankedResult))) =
      (fun p : String × ℚ => p.1) := rfl
  rw [hcomp]
  have hperm := (List.perm_insertionSort fuseLe
    (fuseEntries vNorm bNorm alpha)).map (fun p : String × ℚ => p.1)
  rw [hperm.mem_iff, keys_fuseEntries]
  unfold firstSeen
  rw [mem_firstSeen_foldl, List.mem_append]
  simp

theorem ids_normalize (arr : List Row) :
    (normalize arr).map (fun r => r.id) = arr.map (fun r => r.id) := by
  unfold normalize
  rw [List.map_map]
  rfl

/-! ### C1 -/

/-- C1: given the two normalized ranking lists, an id present in both
(with scores `v` and `l`) receives fused score exactly
`alpha*v + (1-alpha)*l`; an id present only in the vector list receives
exactly `alpha*v`; an id present only in the lexical list receives
exactly `(1-alpha)*l` — the absent method contributes `0`.  Presence is
phrased through `filter`, and the conclusion exhibits the unique entry
of the fused output carrying that id. -/
theorem fused_score_formula (vNorm bNorm : List RankedResult) (alpha : ℚ)
    (k : String) (v l : ℚ) :
    (vNorm.filter (fun r => r.id = k) = [⟨k, v⟩] →
      bNorm.filter (fun r => r.id = k) = [⟨k, l⟩] →
      (fuseSorted vNorm bNorm alpha).filter (fun r => r.id = k) =
        [⟨k, alpha * v + (1 - alpha) * l⟩]) ∧
    (vNorm.filter (fun r => r.id = k) = [⟨k, v⟩] →
      bNorm.filter (fun r => r.id = k) = [] →
      (fuseSorted vNorm bNorm alpha).filter (fun r => r.id = k) =
        [⟨k, alpha * v⟩]) ∧
    (vNorm.filter (fun r => r.id = k) = [] →
      bNorm.filter (fun r => r.id = k) = [⟨k, l⟩] →
      (fuseSorted vNorm bNorm alpha).filter (fun r => r.id = k) =
        [⟨k, (1 - alpha) * l⟩]) := by
  have hv_mem : vNorm.filter (fun r => r.id = k) = [⟨k, v⟩] →
      k ∈ vNorm.map (fun r => r.id) := by
    intro hv
    have : (⟨k, v⟩ : RankedResult) ∈ vNorm.filter (fun r => r.id = k) := by
      rw [hv]; exact List.mem_singleton_self _
    exact List.mem_map.mpr ⟨⟨k, v⟩, List.mem_of_mem_filter this, rfl⟩
  have hb_mem : bNorm.filter (fun r => r.id = k) = [⟨k, l⟩] →
      k ∈ bNorm.map (fun r => r.id) := by
    intro hb
    have : (⟨k, l⟩ : RankedResult) ∈ bNorm.filter (fun r => r.id = k) := by
      rw [hb]; exact List.mem_singleton_self _
    exact List.mem_map.mpr ⟨⟨k, l⟩, List.mem_of_mem_filter this, rfl⟩
  refine ⟨fun hv hb => ?_, fun hv hb => ?_, fun hv hb => ?_⟩
  · have hsv : sumScores vNorm k = v := by unfold sumScores; rw [hv]; simp
    have hsb : sumScores bNorm k = l := by unfold sumScores; rw [hb]; simp
    rw [fuse_filter_key vNorm bNorm alpha k (Or.inl (hv_mem hv)), hsv, hsb]
  · have hsv : sumScores vNorm k = v := by unfold sumScores; rw [hv]; simp
    have hsb : sumScores bNorm k = 0 := by unfold sumScores; rw [hb]; simp
    rw [fuse_filter_key vNorm bNorm alpha k (Or.inl (hv_mem hv)), hsv, hsb]
    norm_num
  · have hsv : sumScores vNorm k = 0 := by unfold sumScores; rw [hv]; simp
    have hsb : sumScores bNorm k = l := by unfold sumScores; rw [hb]; simp
    rw [fuse_filter_key vNorm bNorm alpha k (Or.inr (hb_mem hb)), hsv, hsb]
    norm_num

/-- Witness for C1 at concrete inputs: with normalized lists
`[a: 1, b: 1/4]` and `[a: 1/2]` and `alpha = 1/3`, id `a` (present in
both) gets `1/3*1 + 2/3*1/2`, id `b` (vector-only) gets `1/3*(1/4)`. -/
theorem fused_score_formula_witness :
    (fuseSorted [⟨"a", 1⟩, ⟨"b", 1/4⟩] [⟨"a", 1/2⟩] (1/3)).filter
      (fun r => r.id = "a") =
      [⟨"a", (1/3) * 1 + (1 - 1/3) * (1/2)⟩] ∧
    (fuseSorted [⟨"a", 1⟩, ⟨"b", 1/4⟩] [⟨"a", 1/2⟩] (1/3)).filter
      (fun r => r.id = "b") =
      [⟨"b", (1/3) * (1/4)⟩] :=
  ⟨(fused_score_formula [⟨"a", 1⟩, ⟨"b", 1/4⟩] [⟨"a", 1/2⟩] (1/3) "a" 1
      (1/2)).1 (by simp) (by simp),
   (fused_score_formula [⟨"a", 1⟩, ⟨"b", 1/4⟩] [⟨"a", 1/2⟩] (1/3) "b" (1/4)
      0).2.1 (by simp) (by simp)⟩

/-! ### C2 -/

/-- C2: for any two normalized ranking lists and any caller-supplied
`K`, the fused ranking truncated to `K` has at most `K` entries and is
sorted descending by accumulated fused score; entries with equal scores
appear in the order of their ids' first appearance (the score object is
keyed in first-seen order, vector list traversed first, and the stable
sort preserves the relative order of tied entries). -/
theorem fused_ranking_truncation (vNorm bNorm : List RankedResult)
    (alpha : ℚ) (K : ℕ) :
    ((fuseSorted vNorm bNorm alpha).take K).length ≤ K ∧
    List.Sorted (fun x y => y.score ≤ x.score)
      ((fuseSorted vNorm bNorm alpha).take K) ∧
    (∀ s : ℚ, (fuseSorted vNorm bNorm alpha).filter (fun r => r.score = s) =
      ((fuseEntries vNorm bNorm alpha).map
        (fun p => ({ id := p.1, score := p.2 } : RankedResult))).filter
          (fun r => r.score = s)) ∧
    (fuseEntries vNorm bNorm alpha).map (fun p => p.1) =
      firstSeen (vNorm.map (fun r => r.id) ++ bNorm.map (fun r => r.id)) := by
  refine ⟨?_, ?_, ?_, keys_fuseEntries vNorm bNorm alpha⟩
  · rw [List.length_take]
    exact min_le_left _ _
  · have hsorted : List.Sorted fuseLe
        ((fuseEntries vNorm bNorm alpha).insertionSort fuseLe) :=
      List.sorted_insertionSort fuseLe _
    have hmap : List.Sorted (fun x y : RankedResult => y.score ≤ x.score)
        (fuseSorted vNorm bNorm alpha) := by
      unfold fuseSorted
      exact List.Pairwise.map _ (fun a b hab => hab) hsorted
    exact List.Pairwise.sublist (List.take_sublist K _) hmap
  · intro s
    unfold fuseSorted
    rw [List.filter_map, List.filter_map]
    have hcongr : ∀ m : List (String × ℚ), m.filter
        ((fun r : RankedResult => decide (r.score = s)) ∘
          (fun p => ({ id := p.1, score := p.2 } : RankedResult))) =
        m.filter (fun p => p.2 = s) :=
      fun m => List.filter_congr (fun x _ => rfl)
    rw [hcongr, hcongr]
    congr 1
    exact filter_insertionSort fuseLe (fun p => p.2 = s)
      (fun a b ha hb => by
        have ha2 := of_decide_eq_true ha
        have hb2 := of_decide_eq_true hb
        unfold fuseLe
        rw [ha2, hb2]) _

/-! ### C5, amended -/

/-- C5 amended: swapping the two input lists while complementing the
fusion weight preserves the accumulated fused score of every id and the
set of ids present in the output; the order of the output entries is
however not preserved in general (tied scores follow first-seen order,
which depends on the argument order — see the counterexample). -/
theorem fusion_swap_invariant (V L : List Row) (alpha : ℚ) (k : String) :
    resultScore (weightedFusion V L alpha) k =
      resultScore (weightedFusion L V (1 - alpha)) k ∧
    (k ∈ (weightedFusion V L alpha).map (fun r => r.id) ↔
      k ∈ (weightedFusion L V (1 - alpha)).map (fun r => r.id)) := by
  constructor
  · unfold weightedFusion
    rw [resultScore_fuseSorted, resultScore_fuseSorted, sumAt_fuseEntries,
      sumAt_fuseEntries]
    ring
  · unfold weightedFusion
    rw [mem_ids_fuseSorted, mem_ids_fuseSorted, ids_normalize, ids_normalize]
    exact or_comm

/-! ### C7 -/

theorem string_length_pos (s : String) : 0 < s.length ↔ s ≠ "" := by
  constructor
  · intro h he
    subst he
    simp at h
  · intro h
    cases hs : s.data with
    | nil => exact absurd (String.ext (by simp [hs])) h
    | cons c cs => simp [String.length, hs]

/-- C7: context assembly drops exactly the passages whose text is empty
or missing (whatever their id or metadata), keeps the surviving texts in
order; when at least one text survives the block is the double-newline
join wrapped in the literal sentinel markers, and when none survives the
block is the empty string. -/
theorem context_assembly (rows : List Row) :
    contextItems rows =
      (rows.filter (fun r => r.text.getD "" ≠ "")).map
        (fun r => r.text.getD "") ∧
    ((∃ r ∈ rows, r.text.getD "" ≠ "") →
      contextBlock rows = "START CONTEXT BLOCK\n" ++
        String.intercalate "\n\n" (contextItems rows) ++
        "\nEND OF CONTEXT BLOCK") ∧
    ((∀ r ∈ rows, r.text.getD "" = "") → contextBlock rows = "") := by
  have hitems : contextItems rows =
      (rows.filter (fun r => r.text.getD "" ≠ "")).map
        (fun r => r.text.getD "") := by
    unfold contextItems
    rw [List.filter_map]
    congr 1
    apply List.filter_congr
    intro r _
    simp only [Function.comp_apply]
    rw [decide_eq_decide]
    exact string_length_pos (r.text.getD "")
  refine ⟨hitems, ?_, ?_⟩
  · intro hex
    have hne : (contextItems rows).length > 0 := by
      rw [hitems, List.length_map]
      refine List.length_pos.mpr ?_
      obtain ⟨r, hr, hrt⟩ := hex
      intro hnil
      have : r ∈ rows.filter (fun r => r.text.getD "" ≠ "") :=
        List.mem_filter.mpr ⟨hr, by simpa using hrt⟩
      rw [hnil] at this
      cases this
    unfold contextBlock
    rw [if_pos hne]
  · intro hall
    have hz : (contextItems rows).length = 0 := by
      rw [hitems, List.length_map, List.length_eq_zero]
      apply List.filter_eq_nil_iff.mpr
      intro r hr
      simpa using hall r hr
    unfold contextBlock
    rw [if_neg (by omega)]

/-- Witness for C7: one surviving text among an empty-text and a
missing-text passage produces the sentinel-wrapped block; all-empty
passages produce the empty string. -/
theorem context_assembly_witness :
    contextBlock [⟨"a", none, some "hello"⟩, ⟨"b", none, some ""⟩,
        ⟨"c", none, none⟩] =
      "START CONTEXT BLOCK\n" ++
        String.intercalate "\n\n"
          (contextItems [⟨"a", none, some "hello"⟩, ⟨"b", none, some ""⟩,
            ⟨"c", none, none⟩]) ++
        "\nEND OF CONTEXT BLOCK" ∧
    contextBlock [⟨"a", none, some ""⟩, ⟨"b", none, none⟩] = "" :=
  ⟨(context_assembly [⟨"a", none, some "hello"⟩, ⟨"b", none, some ""⟩,
      ⟨"c", none, none⟩]).2.1
      ⟨⟨"a", none, some "hello"⟩, by simp, by simp⟩,
   (context_assembly [⟨"a", none, some ""⟩, ⟨"b", none, none⟩]).2.2
      (by intro r hr; fin_cases hr <;> rfl)⟩

/-! ### C8 -/

/-- C8 fails as stated: the handler performs no query validation.  With
a whitespace-only user query, the run proceeds, the embedding upstream
call is issued with the whitespace string, and the request completes
with status 200 — it is not rejected before any upstream call. -/
theorem empty_query_counterexample :
    UpCall.embed " " ∈ (POST okUp [⟨"user", " "⟩]).2 ∧
    (POST okUp [⟨"user", " "⟩]).1.status = 200 := by
  constructor <;>
    simp [POST, okUp, lastUserQuery, finishPOST, fusedRows, weightedFusion,
      fuseSorted, fuseEntries, normalize, allRowsById, List.insertionSort]

/-- C8 amended: an empty or whitespace-only query is not rejected; for
every request the handler's first upstream call is the embedding call,
carrying whatever query string was extracted (possibly empty). -/
theorem empty_query_not_rejected (up : Upstreams) (messages : List Msg) :
    (POST up messages).2.head? =
      some (UpCall.embed (lastUserQuery messages)) := by
  simp only [POST]
  split
  · rfl
  · split
    · rfl
    · split
      · split
        · rfl
        · unfold finishPOST
          split <;> rfl
      · unfold finishPOST
        split <;> rfl

/-! ### C9 -/

/-- C9 fails as stated: when the metadata lookup itself fails (throws),
the route's `catch` produces the generic 500 response and neither
context assembly nor generation happens — the retrieved passage
(id `x`, text `hello`) does not contribute its text to any context
block.  Only a *missing record* under a successful lookup is harmless. -/
theorem metadata_failure_counterexample :
    (POST metaFailUp [⟨"user", "q"⟩]).1 = err500 ∧
    (POST metaFailUp [⟨"user", "q"⟩]).2 =
      [UpCall.embed "q", UpCall.search [] "q", UpCall.metaLookup ["x"]] := by
  constructor <;>
    norm_num [POST, metaFailUp, lastUserQuery, fusedRows, weightedFusion,
      fuseSorted, fuseEntries, normalize, rawScore, rangeOf, listMax, listMin,
      addScore, fuseLe, List.insertionSort, List.orderedInsert, allRowsById,
      mapGet, mapSet, finishPOST, RAG_TOP_K, FUSION_ALPHA, List.take,
      List.filterMap]

/-- C9 amended: as long as the metadata lookup call itself succeeds, its
result is irrelevant to the rest of the run — records may be missing for
any or all retrieved ids (metadata treated as absent) and every
retrieved passage still reaches context assembly identically; a lookup
that throws, however, aborts the whole request via the top-level
handler. -/
theorem metadata_join_nonblocking (up : Upstreams)
    (f g : List String → Except Unit (List MetaRec))
    (hf : ∀ ids, ∃ m, f ids = Except.ok m)
    (hg : ∀ ids, ∃ m, g ids = Except.ok m) (messages : List Msg) :
    POST { up with metaLookup := f } messages =
      POST { up with metaLookup := g } messages := by
  simp only [POST]
  split
  · rfl
  · split
    · rfl
    · split
      · obtain ⟨m1, hm1⟩ := hf _
        obtain ⟨m2, hm2⟩ := hg _
        rw [hm1, hm2]
        rfl
      · rfl

/-- Witness for C9 (amended): two successful lookups — one returning no
records at all, one returning an unrelated record — produce identical
runs. -/
theorem metadata_join_nonblocking_witness :
    POST { okUp with metaLookup := fun _ => Except.ok [] }
        [⟨"user", "q"⟩] =
      POST { okUp with metaLookup := fun _ => Except.ok [⟨"y"⟩] }
        [⟨"user", "q"⟩] :=
  metadata_join_nonblocking okUp (fun _ => Except.ok ([] : List MetaRec))
    (fun _ => Except.ok [MetaRec.mk "y"])
    (fun _ => ⟨([] : List MetaRec), rfl⟩)
    (fun _ => ⟨[MetaRec.mk "y"], rfl⟩) [⟨"user", "q"⟩]

/-! ### C10 -/

/-- C10: a hit with an absent raw-score field is treated as carrying raw
score exactly `0` — replacing every absent `dist` by `some` of the read
value (`0` for absent ones) leaves normalization unchanged, so such hits
participate in the min/max computation and receive a scaled output like
any other hit, and no input is rejected. -/
theorem normalize_missing_dist (arr : List Row) :
    normalize (arr.map (fun r => { r with dist := some (rawScore r) })) =
      normalize arr ∧
    ∀ r : Row, r.dist = none → rawScore r = 0 := by
  constructor
  · have hscores : (arr.map
        (fun r : Row => { r with dist := some (rawScore r) })).map rawScore =
        arr.map rawScore := by
      rw [List.map_map]
      exact List.map_congr_left (fun r _ => rfl)
    have hrange : rangeOf (arr.map
        (fun r : Row => { r with dist := some (rawScore r) })) =
        rangeOf arr := by
      unfold rangeOf
      rw [hscores]
    unfold normalize
    rw [hscores, hrange, List.map_map]
    exact List.map_congr_left (fun r _ => rfl)
  · intro r hr
    unfold rawScore
    rw [hr]
    rfl

/-- Witness for C10: a hit with no `dist` among scored hits is scored as
raw `0` and normalized accordingly. -/
theorem normalize_missing_dist_witness :
    normalize (([⟨"a", none, none⟩, ⟨"b", some 2, none⟩] : List Row).map
        (fun r => { r with dist := some (rawScore r) })) =
      normalize [⟨"a", none, none⟩, ⟨"b", some 2, none⟩] ∧
    rawScore ⟨"a", none, none⟩ = 0 :=
  ⟨(normalize_missing_dist [⟨"a", none, none⟩, ⟨"b", some 2, none⟩]).1,
   (normalize_missing_dist []).2 ⟨"a", none, none⟩ rfl⟩

end Ragger
